import Mathlib

/-!
Shallow embedding of the SightBox naming / ranking / user-list / save
subsystem, translated from:

  * `src/strategies/camera/opencv_camera.py`
      (`StandardNaming.sanitize_text`, `generate_filename`,
       `generate_folder_name`, `validate_filename`, `parse_filename`,
       `TesseractOCR.extract_text`)
  * `src/controllers/ui_controller.py`
      (`UIController.save_photo`, `FileUtils.load_user_list`)
  * `src/strategies/base/camera_strategy.py`
      (`OCRResult`, `StorageResult`, `FilenameComponents`)

Strings are modelled as Lean `String` / `List Char` (Python `str` is a
sequence of code points, as is `String.data`).  Python floats used as OCR
confidences are modelled as `ℚ` (the confidences the code manipulates are
decimal literals and arithmetic means, exact in this context).  `re` digit
class `\d` is modelled as ASCII digits (all digits the program produces are
ASCII).  Python `str.lower` is modelled on ASCII letters (the only place it
is used is the `.jpg` extension check, where only ASCII is relevant).
-/

namespace SightBox

/-- Characters removed by the regex class `[<>:"/\\|?*\x00-\x1f]` in
`StandardNaming.sanitize_text` and rejected by `validate_filename`. -/
def isForbiddenChar (c : Char) : Bool :=
  c = '<' || c = '>' || c = ':' || c = '"' || c = '/' || c = '\\' ||
  c = '|' || c = '?' || c = '*' || decide (c.toNat ≤ 0x1f)

/-- Python whitespace: the characters matched by `\s` in a `str` regex and
stripped by `str.strip()` (`Py_UNICODE_ISSPACE`). -/
def isPySpace (c : Char) : Bool :=
  let n := c.toNat
  decide ((9 ≤ n ∧ n ≤ 13) ∨ (28 ≤ n ∧ n ≤ 31) ∨ n = 32 ∨ n = 0x85 ∨
    n = 0xa0 ∨ n = 0x1680 ∨ (0x2000 ≤ n ∧ n ≤ 0x200a) ∨ n = 0x2028 ∨
    n = 0x2029 ∨ n = 0x202f ∨ n = 0x205f ∨ n = 0x3000)

/-- `re.sub(r'\s+', ' ', s)`: each maximal run of whitespace becomes a
single ASCII space.  The flag records whether the previous character was
part of a whitespace run. -/
def collapseWS : Bool → List Char → List Char
  | _, [] => []
  | prev, c :: cs =>
    if isPySpace c then
      if prev then collapseWS true cs else ' ' :: collapseWS true cs
    else c :: collapseWS false cs

/-- Drops trailing whitespace (the right half of `str.strip()`). -/
def dropTrailingSpace : List Char → List Char
  | [] => []
  | c :: cs =>
    let r := dropTrailingSpace cs
    if r.isEmpty then (if isPySpace c then [] else [c]) else c :: r

/-- `str.strip()` on the underlying character list. -/
def pyStrip (l : List Char) : List Char :=
  dropTrailingSpace (l.dropWhile isPySpace)

/-- `str.strip()` on strings. -/
def pyStripStr (s : String) : String :=
  ⟨pyStrip s.data⟩

/-- `s.startswith(pre)` on the underlying character lists. -/
def pyStartsWith (s pre : String) : Bool :=
  pre.data.isPrefixOf s.data

/-- `StandardNaming.sanitize_text` (opencv_camera.py lines 312–331):
empty input gives `"Unknown"`; otherwise remove forbidden characters,
collapse whitespace runs to one space, strip, and fall back to
`"Unknown"` if nothing is left. -/
def sanitize_text (text : String) : String :=
  if text.data = [] then "Unknown"
  else
    let cleaned := text.data.filter (fun c => !isForbiddenChar c)
    let collapsed := collapseWS false cleaned
    let stripped := pyStrip collapsed
    if stripped = [] then "Unknown" else ⟨stripped⟩

/-- Python's `str.lower` restricted to ASCII letters; only the `.jpg`
extension check uses it here. -/
def pyLowerChar (c : Char) : Char :=
  if 'A' ≤ c ∧ c ≤ 'Z' then Char.ofNat (c.toNat + 32) else c

/-- `StandardNaming.validate_filename` (opencv_camera.py lines 333–351). -/
def validate_filename (filename : String) : Bool :=
  if filename.data = [] then false
  else if 255 < filename.data.length then false
  else if filename.data.any isForbiddenChar then false
  else if !List.isSuffixOf ['.', 'j', 'p', 'g'] (filename.data.map pyLowerChar)
    then false
  else true

/-- A Python `datetime.datetime` value, with the field invariants the
`datetime` constructor enforces (only the date part matters here). -/
structure PyDateTime where
  year : Nat
  month : Nat
  day : Nat
  month_ge : 1 ≤ month
  month_le : month ≤ 12
  day_ge : 1 ≤ day
  day_le : day ≤ 31

/-- A zero-padded two-digit decimal rendering, as `strftime` produces for
`%y` (year mod 100), `%m` and `%d`. -/
def twoDigits (n : Nat) : List Char :=
  [Char.ofNat (48 + n / 10 % 10), Char.ofNat (48 + n % 10)]

/-- `timestamp.strftime("%y%m%d")`. -/
def fmtYYMMDD (t : PyDateTime) : String :=
  ⟨twoDigits (t.year % 100) ++ twoDigits t.month ++ twoDigits t.day⟩

/-- `StandardNaming.__init__`: `self.prefix = "03.물품사진"`. -/
def namingPfx : String := "03.물품사진"

/-- `StandardNaming.__init__`: `self.max_content_length = 50`. -/
def max_content_length : Nat := 50

/-- `StandardNaming.generate_filename` (opencv_camera.py lines 280–301). -/
def generate_filename (user ocr_content : String) (t : PyDateTime) : String :=
  let date_str := fmtYYMMDD t
  let clean_user := sanitize_text user
  let clean_content0 := sanitize_text ocr_content
  let clean_content :=
    if max_content_length < clean_content0.data.length
    then (⟨clean_content0.data.take max_content_length⟩ : String)
    else clean_content0
  namingPfx ++ "_" ++ date_str ++ "_" ++ clean_user ++ "_" ++ clean_content
    ++ ".jpg"

/-- `StandardNaming.generate_folder_name` (opencv_camera.py lines 303–310):
`timestamp.strftime("%y년 %m월")`. -/
def generate_folder_name (t : PyDateTime) : String :=
  ⟨twoDigits (t.year % 100)⟩ ++ "년 " ++ ⟨twoDigits t.month⟩ ++ "월"

/-- `FilenameComponents` (camera_strategy.py): the Python field `prefix` is
a Lean keyword, so it is called `pfx` here. -/
structure FilenameComponents where
  pfx : String
  date_str : String
  user : String
  content : String
  extension : String
deriving DecidableEq, Repr

/-- `s.replace('.jpg', '')`: Python `str.replace` removes occurrences left
to right, non-overlapping, never rescanning the output. -/
def stripJpgOcc : List Char → List Char
  | '.' :: 'j' :: 'p' :: 'g' :: rest => stripJpgOcc rest
  | c :: cs => c :: stripJpgOcc cs
  | [] => []

/-- `s.replace('.JPG', '')`. -/
def stripJPGOcc : List Char → List Char
  | '.' :: 'J' :: 'P' :: 'G' :: rest => stripJPGOcc rest
  | c :: cs => c :: stripJPGOcc cs
  | [] => []

/-- The extension-dropping preprocessing of `parse_filename`:
`filename.replace('.jpg', '').replace('.JPG', '')`. -/
def dropExt (l : List Char) : List Char :=
  stripJPGOcc (stripJpgOcc l)

/-- The trailing group `(.+)$` of the parse pattern: one or more
non-newline characters, then `$`, which in Python matches at the end of the
string or just before a final newline. -/
def matchContent (c : List Char) : Option (List Char) :=
  if c = [] then none
  else if c.contains '\n' then
    if c.getLast? = some '\n' ∧ ¬c.dropLast.contains '\n' ∧ c.dropLast ≠ []
    then some c.dropLast else none
  else some c

/-- The tail `([^_]+)_(.+)$` of the parse pattern applied after the second
separator: the user group greedily takes the maximal underscore-free run
(it cannot backtrack shorter, since the next literal is `_`), then the
content group takes the rest. -/
def matchTail (rest : List Char) : Option (List Char × List Char) :=
  let run := rest.takeWhile (fun c => c ≠ '_')
  if run = [] then none
  else
    match rest.drop run.length with
    | '_' :: c => (matchContent c).map (fun ct => (run, ct))
    | _ => none

/-- Attempts the part of the pattern after the candidate first group:
`_(\d{6})_([^_]+)_(.+)$`.  `\d` is modelled as ASCII digits. -/
def checkAt (pre : List Char) (rest : List Char) :
    Option (List Char × List Char × List Char × List Char) :=
  match rest with
  | '_' :: r1 =>
    let ds := r1.take 6
    if ds.length = 6 ∧ ds.all Char.isDigit then
      match r1.drop 6 with
      | '_' :: r2 => (matchTail r2).map (fun uc => (pre, ds, uc.1, uc.2))
      | _ => none
    else none
  | _ => none

/-- `re.match(r'^(.+?)_(\d{6})_([^_]+)_(.+)$', name)`: the lazy first group
`(.+?)` grows one (non-newline) character at a time; the first split point
at which the rest of the pattern matches wins. -/
def findSplit (pre : List Char) :
    List Char → Option (List Char × List Char × List Char × List Char)
  | [] => none
  | ch :: rest =>
    if ch = '\n' then none
    else
      match checkAt (pre ++ [ch]) rest with
      | some r => some r
      | none => findSplit (pre ++ [ch]) rest

/-- `StandardNaming.parse_filename` (opencv_camera.py lines 353–376). -/
def parse_filename (filename : String) : Option FilenameComponents :=
  let name := dropExt filename.data
  (findSplit [] name).map fun r =>
    ⟨⟨r.1⟩, ⟨r.2.1⟩, ⟨r.2.2.1⟩, ⟨r.2.2.2⟩, "jpg"⟩

/-- `OCRResult` (camera_strategy.py): `text`, `confidence`, `bbox`
(`bbox or []` makes the empty list the default box). -/
structure OCRResult where
  text : String
  confidence : ℚ
  bbox : List Int
deriving DecidableEq, Repr

/-- The `OCRResult` constructor body: it strips its `text` argument. -/
def mkOCRResult (text : String) (confidence : ℚ) (bbox : List Int := []) :
    OCRResult :=
  ⟨pyStripStr text, confidence, bbox⟩

/-- One row of the `pytesseract.image_to_data` dictionary: the raw text,
confidence, and box coordinates of one detection. -/
structure RawFragment where
  text : String
  conf : ℚ
  left : Int
  top : Int
  width : Int
  height : Int

/-- One iteration of the collection loop in `TesseractOCR.extract_text`:
keep the fragment iff its stripped text is non-empty and its confidence is
strictly above 30; a kept fragment contributes the same stripped text to
both the `results` and the `texts` lists. -/
def keepFragment (d : RawFragment) : Option (OCRResult × String) :=
  let text := pyStripStr d.text
  if text ≠ "" ∧ 30 < d.conf then
    some (mkOCRResult text d.conf [d.left, d.top, d.width, d.height], text)
  else none

/-- One step of `results.sort(key=lambda x: x.confidence, reverse=True)`:
insert before the first strictly smaller key. -/
def insertDesc (x : OCRResult) : List OCRResult → List OCRResult
  | [] => [x]
  | y :: ys =>
    if x.confidence < y.confidence then y :: insertDesc x ys else x :: y :: ys

/-- `list.sort(key=..., reverse=True)` is a stable descending sort; it
equals insertion sort (from the left) where each element is placed before
the first strictly smaller key, hence after every earlier tie. -/
def sortByConfDesc : List OCRResult → List OCRResult
  | [] => []
  | x :: xs => insertDesc x (sortByConfDesc xs)

/-- The candidate-ranking core of `TesseractOCR.extract_text`
(opencv_camera.py lines 106–128): filter fragments, synthesize the joined
full-text candidate with the mean confidence at the front, sort by
confidence descending (stable). -/
def rank (data : List RawFragment) : List OCRResult :=
  let pairs := data.filterMap keepFragment
  let results := pairs.map Prod.fst
  let texts := pairs.map Prod.snd
  let withFull :=
    if texts ≠ [] then
      let full_text := String.intercalate " " texts
      let overall :=
        if results = [] then 0
        else (results.map OCRResult.confidence).sum / (results.length : ℚ)
      mkOCRResult full_text overall :: results
    else results
  sortByConfDesc withFull

/-- The file-system resource behind `FileUtils.load_user_list`. -/
inductive UserFile where
  | missing
  | readable (lines : List String)
  | readError
deriving DecidableEq, Repr

/-- `default_users` in `FileUtils.load_user_list`. -/
def default_users : List String := ["김철수", "이영희", "박민수", "최은정"]

/-- The `["기본사용자"]` fallback of `FileUtils.load_user_list`. -/
def fallback_users : List String := ["기본사용자"]

/-- The header `FileUtils.save_user_list` writes before the names (the
empty line comes from the `\n\n` ending the second comment write). -/
def userFileHeader : List String :=
  ["# 사용자 목록 파일", "# 한 줄에 한 사용자씩 작성하세요", ""]

/-- One loop iteration of `load_user_list`: the stripped line is kept
unless it is empty or starts with `#`. -/
def keepLine (line : String) : Option String :=
  let user := pyStripStr line
  if user ≠ "" ∧ ¬pyStartsWith user "#" then some user else none

/-- `FileUtils.load_user_list` (ui_controller.py lines 128–156), with the
backing file as explicit state.  `writeOk` says whether the
`save_user_list` call issued for a missing file succeeds (that call
swallows its own errors and `load_user_list` ignores its result). -/
def load_user_list (fs : UserFile) (writeOk : Bool) :
    List String × UserFile :=
  match fs with
  | .readable lines =>
    let users := lines.filterMap keepLine
    ((if users = [] then fallback_users else users), fs)
  | .missing =>
    (default_users,
      if writeOk then .readable (userFileHeader ++ default_users)
      else .missing)
  | .readError => (fallback_users, .readError)

/-- `StorageResult` (camera_strategy.py); the metadata dictionary plays no
role in the embedded code paths. -/
structure StorageResult where
  success : Bool
  file_path : Option String := none
  error_message : Option String := none

/-- The fields of `UIController` that `save_photo` can read or write. -/
structure UIControllerState (Img : Type) where
  current_image : Option Img
  ocr_results : List OCRResult
  users : List String
deriving DecidableEq

/-- `UIController.save_photo` (ui_controller.py lines 59–82).  The storage
collaborator is a parameter; a Python exception raised by
`storage_strategy.save_image` is an `Except.error`, which the surrounding
`try`/`except` turns into the `False` return.  `datetime.now()` is the
parameter `t`. -/
def save_photo {Img : Type} (st : UIControllerState Img)
    (storage_save : Img → String → Except String StorageResult)
    (user ocr_content : String) (t : PyDateTime) :
    Bool × UIControllerState Img :=
  match st.current_image with
  | none => (false, st)
  | some img =>
    let filename := generate_filename user ocr_content t
    let folder_name := generate_folder_name t
    let file_path := folder_name ++ "/" ++ filename
    match storage_save img file_path with
    | .ok result => (result.success, st)
    | .error _ => (false, st)

/-! ### Properties of the whitespace machinery -/

/-- No two adjacent whitespace characters. -/
abbrev NoAdjSpace (l : List Char) : Prop :=
  l.Chain' (fun a b => ¬(isPySpace a = true ∧ isPySpace b = true))

theorem mem_collapseWS {c : Char} {b : Bool} {l : List Char}
    (h : c ∈ collapseWS b l) : c = ' ' ∨ c ∈ l := by
  induction l generalizing b with
  | nil => simp [collapseWS] at h
  | cons x xs ih =>
    by_cases hx : isPySpace x <;> cases b <;>
      simp only [collapseWS, hx, if_true, if_false, Bool.false_eq_true,
        reduceIte, List.mem_cons] at h
    · rcases h with h | h
      · exact Or.inl h
      · rcases ih h with h' | h'
        · exact Or.inl h'
        · exact Or.inr (List.mem_cons_of_mem _ h')
    · rcases ih h with h' | h'
      · exact Or.inl h'
      · exact Or.inr (List.mem_cons_of_mem _ h')
    all_goals
      rcases h with h | h
      · exact Or.inr (h ▸ List.mem_cons_self x xs)
      · rcases ih h with h' | h'
        · exact Or.inl h'
        · exact Or.inr (List.mem_cons_of_mem _ h')

theorem isPySpace_mem_collapseWS {c : Char} {b : Bool} {l : List Char}
    (h : c ∈ collapseWS b l) (hc : isPySpace c = true) : c = ' ' := by
  induction l generalizing b with
  | nil => simp [collapseWS] at h
  | cons x xs ih =>
    by_cases hx : isPySpace x <;> cases b <;>
      simp only [collapseWS, hx, if_true, if_false, Bool.false_eq_true,
        reduceIte, List.mem_cons] at h
    · rcases h with h | h
      · exact h
      · exact ih h
    · exact ih h
    all_goals
      rcases h with h | h
      · subst h; rw [hc] at hx; exact absurd rfl hx
      · exact ih h

theorem head?_collapseWS_true {l : List Char} {h : Char}
    (hh : (collapseWS true l).head? = some h) : isPySpace h = false := by
  induction l with
  | nil => simp [collapseWS] at hh
  | cons x xs ih =>
    by_cases hx : isPySpace x <;>
      simp only [collapseWS, hx, if_true, Bool.false_eq_true, reduceIte,
        List.head?_cons] at hh
    · exact ih hh
    · cases hh; simpa using hx

theorem noAdjSpace_collapseWS (b : Bool) (l : List Char) :
    NoAdjSpace (collapseWS b l) := by
  induction l generalizing b with
  | nil => simp [collapseWS, NoAdjSpace]
  | cons x xs ih =>
    by_cases hx : isPySpace x <;> cases b <;>
      simp only [collapseWS, hx, if_true, if_false, Bool.false_eq_true,
        reduceIte]
    · refine List.chain'_cons'.mpr ⟨fun h hh => ?_, ih true⟩
      intro ⟨_, hsp⟩
      rw [head?_collapseWS_true hh] at hsp
      exact Bool.false_ne_true hsp
    · exact ih true
    all_goals
      refine List.chain'_cons'.mpr ⟨fun h hh => ?_, ih false⟩
      intro ⟨hsp, _⟩
      exact hx hsp

theorem dropTrailingSpace_pre (l : List Char) : dropTrailingSpace l <+: l := by
  induction l with
  | nil => exact List.prefix_refl _
  | cons x xs ih =>
    simp only [dropTrailingSpace]
    by_cases h : (dropTrailingSpace xs).isEmpty <;> simp only [h, if_true,
      Bool.false_eq_true, reduceIte]
    · by_cases hx : isPySpace x <;> simp only [hx, if_true, Bool.false_eq_true,
        reduceIte]
      · exact List.nil_prefix
      · exact ⟨xs, rfl⟩
    · exact List.cons_prefix_cons.mpr ⟨rfl, ih⟩

theorem getLast?_dropTrailingSpace {l : List Char} {h : Char}
    (hh : (dropTrailingSpace l).getLast? = some h) : isPySpace h = false := by
  induction l with
  | nil => simp [dropTrailingSpace] at hh
  | cons x xs ih =>
    simp only [dropTrailingSpace] at hh
    by_cases he : (dropTrailingSpace xs).isEmpty
    · simp only [he, if_true] at hh
      by_cases hx : isPySpace x <;> simp only [hx, if_true, Bool.false_eq_true,
        reduceIte] at hh
      · simp at hh
      · simp only [List.getLast?_singleton, Option.some.injEq] at hh
        cases hh; simpa using hx
    · simp only [he, Bool.false_eq_true, reduceIte] at hh
      rcases hr : dropTrailingSpace xs with _ | ⟨y, r⟩
      · rw [hr] at he; simp at he
      · rw [hr, List.getLast?_cons_cons] at hh
        exact ih (hr ▸ hh)

theorem head?_dropWhile_not {p : Char → Bool} {l : List Char} {h : Char}
    (hh : (l.dropWhile p).head? = some h) : p h = false := by
  induction l with
  | nil => simp at hh
  | cons x xs ih =>
    by_cases hx : p x <;>
      simp only [List.dropWhile_cons, hx, if_true, Bool.false_eq_true,
        reduceIte, List.head?_cons] at hh
    · exact ih hh
    · cases hh; simpa using hx

theorem head?_of_pre {l₁ l₂ : List Char} {h : Char} (hp : l₁ <+: l₂)
    (hh : l₁.head? = some h) : l₂.head? = some h := by
  rcases hp with ⟨t, rfl⟩
  cases l₁ with
  | nil => simp at hh
  | cons x xs => simpa using hh

theorem pyStrip_sublist (l : List Char) : (pyStrip l).Sublist l :=
  ((dropTrailingSpace_pre _).sublist).trans (List.dropWhile_suffix _).sublist

theorem head?_pyStrip {l : List Char} {h : Char}
    (hh : (pyStrip l).head? = some h) : isPySpace h = false :=
  head?_dropWhile_not (head?_of_pre (dropTrailingSpace_pre _) hh)

theorem getLast?_pyStrip {l : List Char} {h : Char}
    (hh : (pyStrip l).getLast? = some h) : isPySpace h = false :=
  getLast?_dropTrailingSpace hh

theorem noAdjSpace_pyStrip {l : List Char} (hl : NoAdjSpace l) :
    NoAdjSpace (pyStrip l) :=
  List.Chain'.prefix (hl.suffix (List.dropWhile_suffix _))
    (dropTrailingSpace_pre _)

/-! ### Properties of the sanitizer -/

/-- The character list `sanitize_text` builds before its final emptiness
check. -/
def cleanedOf (s : String) : List Char :=
  pyStrip (collapseWS false (s.data.filter (fun c => !isForbiddenChar c)))

theorem sanitize_text_eq (s : String) :
    sanitize_text s =
      if s.data = [] then "Unknown"
      else if cleanedOf s = [] then "Unknown" else ⟨cleanedOf s⟩ := rfl

theorem mem_cleanedOf {c : Char} {s : String} (h : c ∈ cleanedOf s) :
    c = ' ' ∨ c ∈ s.data ∧ isForbiddenChar c = false := by
  have h1 : c ∈ collapseWS false (s.data.filter (fun c => !isForbiddenChar c)) :=
    (pyStrip_sublist _).mem h
  rcases mem_collapseWS h1 with h2 | h2
  · exact Or.inl h2
  · have := List.mem_filter.mp h2
    exact Or.inr ⟨this.1, by simpa using this.2⟩

theorem forbidden_mem_cleanedOf {c : Char} {s : String} (h : c ∈ cleanedOf s) :
    isForbiddenChar c = false := by
  rcases mem_cleanedOf h with h1 | h1
  · subst h1; decide
  · exact h1.2

theorem space_mem_cleanedOf {c : Char} {s : String} (h : c ∈ cleanedOf s)
    (hc : isPySpace c = true) : c = ' ' :=
  isPySpace_mem_collapseWS ((pyStrip_sublist _).mem h) hc

theorem noAdjSpace_cleanedOf (s : String) : NoAdjSpace (cleanedOf s) :=
  noAdjSpace_pyStrip (noAdjSpace_collapseWS false _)

/-! ### Identity lemmas used for idempotence -/

theorem collapseWS_eq_self {l : List Char}
    (hsp : ∀ c ∈ l, isPySpace c = true → c = ' ') (hch : NoAdjSpace l) :
    ∀ b : Bool, (b = true → ∀ h, l.head? = some h → isPySpace h = false) →
      collapseWS b l = l := by
  induction l with
  | nil => intro b _; rfl
  | cons x xs ih =>
    intro b hb
    have hch' : NoAdjSpace xs := hch.tail
    have hsp' : ∀ c ∈ xs, isPySpace c = true → c = ' ' :=
      fun c hc => hsp c (List.mem_cons_of_mem _ hc)
    by_cases hx : isPySpace x
    · have hx' : x = ' ' := hsp x (List.mem_cons_self _ _) hx
      cases b with
      | true => exact absurd hx (by rw [hb rfl x List.head?_cons]; simp)
      | false =>
        simp only [collapseWS, hx, if_true, Bool.false_eq_true, reduceIte]
        rw [← hx']
        refine congrArg (x :: ·) (ih hsp' hch' true (fun _ h hh => ?_))
        have := (List.chain'_cons'.mp hch).1 h (by
          cases xs with
          | nil => simp at hh
          | cons y ys => simpa using hh)
        by_contra hc
        exact this ⟨hx, by simpa using hc⟩
    · cases b <;>
        simp only [collapseWS, (by simpa using hx : isPySpace x = false),
          Bool.false_eq_true, reduceIte] <;>
        exact congrArg (x :: ·) (ih hsp' hch' false (by simp))

theorem dropWhile_eq_self_of_head {p : Char → Bool} {l : List Char}
    (h : ∀ x, l.head? = some x → p x = false) : l.dropWhile p = l := by
  cases l with
  | nil => rfl
  | cons x xs => simp [List.dropWhile_cons, h x List.head?_cons]

theorem dropTrailingSpace_eq_self {l : List Char}
    (h : ∀ x, l.getLast? = some x → isPySpace x = false) :
    dropTrailingSpace l = l := by
  induction l with
  | nil => rfl
  | cons x xs ih =>
    cases xs with
    | nil =>
      have hx : isPySpace x = false := h x (by simp)
      simp [dropTrailingSpace, hx]
    | cons y ys =>
      have hxs : dropTrailingSpace (y :: ys) = y :: ys :=
        ih (fun z hz => h z (by rw [List.getLast?_cons_cons]; exact hz))
      rw [dropTrailingSpace, hxs]
      simp

theorem pyStrip_eq_self {l : List Char}
    (hhead : ∀ x, l.head? = some x → isPySpace x = false)
    (hlast : ∀ x, l.getLast? = some x → isPySpace x = false) :
    pyStrip l = l := by
  unfold pyStrip
  rw [dropWhile_eq_self_of_head hhead]
  exact dropTrailingSpace_eq_self hlast

/-- Sanitizing an already-sanitized character list changes nothing:
the core of idempotence. -/
theorem cleanedOf_mk_cleanedOf (s : String) :
    cleanedOf ⟨cleanedOf s⟩ = cleanedOf s := by
  unfold cleanedOf
  have hfilter : (cleanedOf s).filter (fun c => !isForbiddenChar c) = cleanedOf s :=
    List.filter_eq_self.mpr (fun c hc => by simp [forbidden_mem_cleanedOf hc])
  show pyStrip (collapseWS false ((cleanedOf s).filter _)) = cleanedOf s
  rw [hfilter]
  rw [collapseWS_eq_self (fun c hc => space_mem_cleanedOf hc)
    (noAdjSpace_cleanedOf s) false (by simp)]
  exact pyStrip_eq_self (fun x hx => head?_pyStrip hx)
    (fun x hx => getLast?_pyStrip hx)

theorem noAdjSpace_Unknown : NoAdjSpace "Unknown".data := by
  refine List.chain'_cons.mpr ⟨by decide, ?_⟩
  refine List.chain'_cons.mpr ⟨by decide, ?_⟩
  refine List.chain'_cons.mpr ⟨by decide, ?_⟩
  refine List.chain'_cons.mpr ⟨by decide, ?_⟩
  refine List.chain'_cons.mpr ⟨by decide, ?_⟩
  refine List.chain'_cons.mpr ⟨by decide, ?_⟩
  exact List.chain'_singleton _

/-- C5: `sanitize_text` is total and always safe: on every input it returns
a non-empty string containing no character of `< > : " / \ | ? *` and no
control character 0x00–0x1F (together: no forbidden character), in which
every whitespace character is the single space `' '`, no two whitespace
characters are adjacent (runs collapsed), the first and last characters are
not whitespace, and it returns exactly `"Unknown"` whenever nothing remains
after cleaning (in particular on empty input). -/
theorem sanitize_text_total_safe (s : String) :
    sanitize_text s ≠ "" ∧
    (∀ c ∈ (sanitize_text s).data, isForbiddenChar c = false) ∧
    (∀ c ∈ (sanitize_text s).data, isPySpace c = true → c = ' ') ∧
    NoAdjSpace (sanitize_text s).data ∧
    (∀ h, (sanitize_text s).data.head? = some h → isPySpace h = false) ∧
    (∀ h, (sanitize_text s).data.getLast? = some h → isPySpace h = false) ∧
    (s.data = [] ∨ cleanedOf s = [] → sanitize_text s = "Unknown") := by
  rw [sanitize_text_eq]
  by_cases h0 : s.data = []
  · rw [if_pos h0]
    exact ⟨by decide, by decide, by decide, noAdjSpace_Unknown, by decide,
      by decide, fun _ => rfl⟩
  · rw [if_neg h0]
    by_cases h1 : cleanedOf s = []
    · rw [if_pos h1]
      exact ⟨by decide, by decide, by decide, noAdjSpace_Unknown, by decide,
        by decide, fun _ => rfl⟩
    · rw [if_neg h1]
      refine ⟨?_, ?_, ?_, ?_, ?_, ?_, ?_⟩
      · intro h
        exact h1 (congrArg String.data h)
      · exact fun c hc => forbidden_mem_cleanedOf hc
      · exact fun c hc => space_mem_cleanedOf hc
      · exact noAdjSpace_cleanedOf s
      · exact fun h hh => head?_pyStrip hh
      · exact fun h hh => getLast?_pyStrip hh
      · rintro (h | h)
        · exact absurd h h0
        · exact absurd h h1

/-- Witness for C5 at concrete inputs: a messy input sanitizes to a
non-empty safe string and an all-forbidden input collapses to
`"Unknown"`. -/
theorem sanitize_text_total_safe_witness :
    sanitize_text " a<b ? c " ≠ "" ∧
    isForbiddenChar 'a' = false ∧
    sanitize_text "<>?" = "Unknown" := by
  refine ⟨(sanitize_text_total_safe " a<b ? c ").1,
    (sanitize_text_total_safe " a<b ? c ").2.1 'a' (by decide),
    (sanitize_text_total_safe "<>?").2.2.2.2.2.2 (Or.inr (by decide))⟩

/-- C6: `sanitize_text` is idempotent. -/
theorem sanitize_text_idempotent (s : String) :
    sanitize_text (sanitize_text s) = sanitize_text s := by
  rw [sanitize_text_eq s]
  by_cases h0 : s.data = []
  · rw [if_pos h0]
    decide
  · rw [if_neg h0]
    by_cases h1 : cleanedOf s = []
    · rw [if_pos h1]
      decide
    · rw [if_neg h1]
      rw [sanitize_text_eq]
      have hd : (⟨cleanedOf s⟩ : String).data = cleanedOf s := rfl
      rw [hd, cleanedOf_mk_cleanedOf]
      rw [if_neg h1, if_neg h1]

end SightBox


namespace SightBox

/-! ### Digit characters and the validator -/

theorem digit_ofNat_facts (d : Nat) (hd : d < 10) :
    (Char.ofNat (48 + d)).isDigit = true ∧
    isForbiddenChar (Char.ofNat (48 + d)) = false ∧
    Char.ofNat (48 + d) ≠ '_' ∧ Char.ofNat (48 + d) ≠ '\n' ∧
    pyLowerChar (Char.ofNat (48 + d)) = Char.ofNat (48 + d) ∧
    Char.ofNat (48 + d) ≠ '.' := by
  interval_cases d <;> exact ⟨by decide, by decide, by decide, by decide,
    by decide, by decide⟩

theorem twoDigits_facts (n : Nat) :
    ∀ c ∈ twoDigits n,
      c.isDigit = true ∧ isForbiddenChar c = false ∧ c ≠ '_' ∧ c ≠ '\n' ∧
      pyLowerChar c = c ∧ c ≠ '.' := by
  intro c hc
  rcases (by simpa [twoDigits] using hc :
      c = Char.ofNat (48 + n / 10 % 10) ∨ c = Char.ofNat (48 + n % 10)) with
    rfl | rfl
  · exact digit_ofNat_facts _ (Nat.mod_lt _ (by norm_num))
  · exact digit_ofNat_facts _ (Nat.mod_lt _ (by norm_num))

theorem fmtYYMMDD_data (t : PyDateTime) :
    (fmtYYMMDD t).data =
      twoDigits (t.year % 100) ++ twoDigits t.month ++ twoDigits t.day := rfl

theorem fmtYYMMDD_facts (t : PyDateTime) :
    (fmtYYMMDD t).data.length = 6 ∧
    ∀ c ∈ (fmtYYMMDD t).data,
      c.isDigit = true ∧ isForbiddenChar c = false ∧ c ≠ '_' ∧ c ≠ '\n' ∧
      pyLowerChar c = c ∧ c ≠ '.' := by
  constructor
  · simp [fmtYYMMDD_data, twoDigits]
  · intro c hc
    rw [fmtYYMMDD_data] at hc
    rcases List.mem_append.mp hc with hc | hc
    · rcases List.mem_append.mp hc with hc | hc
      · exact twoDigits_facts _ c hc
      · exact twoDigits_facts _ c hc
    · exact twoDigits_facts _ c hc

theorem validate_true_of (name : String) (hne : name.data ≠ [])
    (hlen : name.data.length ≤ 255)
    (hforb : ∀ c ∈ name.data, isForbiddenChar c = false)
    (hsuf : ∃ x, x ++ ['.', 'j', 'p', 'g'] = name.data.map pyLowerChar) :
    validate_filename name = true := by
  unfold validate_filename
  rw [if_neg hne, if_neg (by omega : ¬255 < name.data.length)]
  have hany : name.data.any isForbiddenChar = false := by
    rw [List.any_eq_false]
    intro c hc
    simp [hforb c hc]
  rw [if_neg (by simp [hany])]
  rcases hsuf with ⟨x, hx⟩
  have hsufOf : List.isSuffixOf ['.', 'j', 'p', 'g']
      (name.data.map pyLowerChar) = true := by
    rw [List.isSuffixOf_iff_suffix, ← hx]
    exact ⟨x, rfl⟩
  rw [if_neg (by simp [hsufOf])]

/-- C8: `validate_filename` rejects every filename longer than 255
characters, rejects every filename containing `?`, and accepts every
otherwise-valid filename (non-empty, at most 255 characters, no forbidden
character) that ends in `.JPG`. -/
theorem validate_filename_spec :
    (∀ name : String, 255 < name.data.length → validate_filename name = false) ∧
    (∀ name : String, '?' ∈ name.data → validate_filename name = false) ∧
    (∀ name : String, name.data ≠ [] → name.data.length ≤ 255 →
      (∀ c ∈ name.data, isForbiddenChar c = false) →
      ['.', 'J', 'P', 'G'] <:+ name.data →
      validate_filename name = true) := by
  refine ⟨?_, ?_, ?_⟩
  · intro name hlen
    have hne : name.data ≠ [] := by
      intro h; rw [h] at hlen; simp at hlen
    unfold validate_filename
    rw [if_neg hne, if_pos hlen]
  · intro name hq
    have hne : name.data ≠ [] := List.ne_nil_of_mem hq
    unfold validate_filename
    rw [if_neg hne]
    by_cases hlen : 255 < name.data.length
    · rw [if_pos hlen]
    · rw [if_neg hlen]
      have hany : name.data.any isForbiddenChar = true :=
        List.any_eq_true.mpr ⟨'?', hq, by decide⟩
      rw [if_pos hany]
  · intro name hne hlen hforb hsuf
    rcases hsuf with ⟨x, hx⟩
    refine validate_true_of name hne hlen hforb ⟨x.map pyLowerChar, ?_⟩
    rw [← hx, List.map_append]
    rfl

set_option maxRecDepth 4000 in
/-- Witness for C8: a 256-character name is rejected, `a?.jpg` is
rejected, `PHOTO.JPG` is accepted. -/
theorem validate_filename_spec_witness :
    validate_filename ⟨List.replicate 256 'a'⟩ = false ∧
    validate_filename "a?.jpg" = false ∧
    validate_filename "PHOTO.JPG" = true := by
  refine ⟨validate_filename_spec.1 _ (by decide),
    validate_filename_spec.2.1 _ (by decide),
    validate_filename_spec.2.2 _ (by decide) (by decide) (by decide)
      (by decide)⟩

end SightBox

namespace SightBox

/-! ### The user list loader -/

theorem keepLine_none {l : String}
    (h : pyStripStr l = "" ∨ pyStartsWith (pyStripStr l) "#" = true) :
    keepLine l = none := by
  unfold keepLine
  rw [if_neg]
  rintro ⟨h1, h2⟩
  rcases h with h | h
  · exact h1 h
  · exact h2 h

/-- C7: `load_user_list` skips every line that is blank after stripping or
starts with `#`; on a missing file it returns the seeded 4-name default
(and, when the write succeeds, leaves the file holding the header plus
those names in order); on a read failure or when every line is
blank/comment it returns exactly `["기본사용자"]`; it never returns an
empty list. -/
theorem load_user_list_spec :
    (∀ (lines : List String) (w : Bool) (l : String),
      pyStripStr l = "" ∨ pyStartsWith (pyStripStr l) "#" = true →
      (load_user_list (.readable (l :: lines)) w).1 =
        (load_user_list (.readable lines) w).1) ∧
    (∀ w, (load_user_list .missing w).1 =
      ["김철수", "이영희", "박민수", "최은정"]) ∧
    (load_user_list .missing true).2 =
      .readable ["# 사용자 목록 파일", "# 한 줄에 한 사용자씩 작성하세요", "",
        "김철수", "이영희", "박민수", "최은정"] ∧
    (∀ w, (load_user_list .readError w).1 = ["기본사용자"]) ∧
    (∀ (lines : List String) (w : Bool),
      (∀ l ∈ lines, pyStripStr l = "" ∨ pyStartsWith (pyStripStr l) "#" = true) →
      (load_user_list (.readable lines) w).1 = ["기본사용자"]) ∧
    (∀ (fs : UserFile) (w : Bool), (load_user_list fs w).1 ≠ []) := by
  refine ⟨?_, fun _ => rfl, rfl, fun _ => rfl, ?_, ?_⟩
  · intro lines w l h
    simp [load_user_list, List.filterMap_cons, keepLine_none h]
  · intro lines w h
    have hnil : lines.filterMap keepLine = [] := by
      rw [List.filterMap_eq_nil_iff]
      exact fun l hl => keepLine_none (h l hl)
    simp [load_user_list, hnil, fallback_users]
  · intro fs w
    cases fs with
    | missing => simp [load_user_list, default_users]
    | readError => simp [load_user_list, fallback_users]
    | readable lines =>
      simp only [load_user_list]
      by_cases h : lines.filterMap keepLine = []
      · simp [h, fallback_users]
      · simp [h]

/-- Witness for C7: a comment line and a blank line are skipped, leaving
the fallback on an all-comment file. -/
theorem load_user_list_spec_witness :
    (load_user_list (.readable ["# header", "김철수"]) true).1 =
      (load_user_list (.readable ["김철수"]) true).1 ∧
    (load_user_list (.readable ["# a", "  "]) false).1 = ["기본사용자"] ∧
    (load_user_list (.readable []) true).1 ≠ [] := by
  refine ⟨load_user_list_spec.1 _ _ _ (Or.inr (by decide)),
    load_user_list_spec.2.2.2.2.1 _ _ ?_,
    load_user_list_spec.2.2.2.2.2 _ _⟩
  intro l hl
  rcases (by simpa using hl : l = "# a" ∨ l = "  ") with rfl | rfl
  · exact Or.inr (by decide)
  · exact Or.inl (by decide)

/-! ### The save coordinator -/

/-- C9: with no image held, `save_photo` returns `False` with unchanged
state and behaves identically for every storage collaborator (storage is
not invoked); and whenever the storage collaborator raises, the exception
is translated into the `False` result rather than propagating. -/
theorem save_photo_guard_and_total :
    (∀ (Img : Type) (st : UIControllerState Img)
      (s1 s2 : Img → String → Except String StorageResult)
      (u c : String) (t : PyDateTime),
      st.current_image = none →
      save_photo st s1 u c t = (false, st) ∧
      save_photo st s1 u c t = save_photo st s2 u c t) ∧
    (∀ (Img : Type) (st : UIControllerState Img)
      (s1 : Img → String → Except String StorageResult)
      (u c : String) (t : PyDateTime) (msg : Img → String → String),
      (∀ i p, s1 i p = Except.error (msg i p)) →
      (save_photo st s1 u c t).1 = false) := by
  constructor
  · intro Img st s1 s2 u c t h
    unfold save_photo
    rw [h]
    exact ⟨rfl, rfl⟩
  · intro Img st s1 u c t msg hmsg
    rcases h : st.current_image with _ | img
    · simp [save_photo, h]
    · simp [save_photo, h, hmsg]

/-- Witness for C9 at a concrete state and storage collaborator. -/
theorem save_photo_guard_and_total_witness :
    save_photo (⟨none, [], []⟩ : UIControllerState Nat)
        (fun _ _ => Except.ok ⟨true, none, none⟩) "u" "c"
        ⟨2024, 12, 5, by decide, by decide, by decide, by decide⟩ =
      (false, ⟨none, [], []⟩) ∧
    (save_photo (⟨some 7, [], []⟩ : UIControllerState Nat)
        (fun _ _ => Except.error "disk full") "u" "c"
        ⟨2024, 12, 5, by decide, by decide, by decide, by decide⟩).1 =
      false := by
  exact ⟨(save_photo_guard_and_total.1 Nat ⟨none, [], []⟩ _
      (fun _ _ => Except.error "x") "u" "c" _ rfl).1,
    save_photo_guard_and_total.2 Nat ⟨some 7, [], []⟩ _ "u" "c" _
      (fun _ _ => "disk full") (fun _ _ => rfl)⟩

/-- C10: `save_photo` never mutates the controller state: whatever the
inputs and whatever the storage collaborator returns or raises, the state
after the call is the state before it (in particular the held image is not
cleared). -/
theorem save_photo_preserves_state (Img : Type) (st : UIControllerState Img)
    (s1 : Img → String → Except String StorageResult)
    (u c : String) (t : PyDateTime) :
    (save_photo st s1 u c t).2 = st := by
  rcases h : st.current_image with _ | img
  · simp [save_photo, h]
  · simp only [save_photo, h]
    rcases s1 img (generate_folder_name t ++ "/" ++ generate_filename u c t)
      with e | r
    · rfl
    · rfl

end SightBox

namespace SightBox

/-! ### Properties of the candidate ranking -/

theorem keepFragment_none {d : RawFragment}
    (h : pyStripStr d.text = "" ∨ d.conf ≤ 30) : keepFragment d = none := by
  unfold keepFragment
  rw [if_neg]
  rintro ⟨h1, h2⟩
  rcases h with h | h
  · exact h1 h
  · exact absurd h2 (not_lt.mpr h)

theorem head?_insertDesc (x : OCRResult) (l : List OCRResult) (h : OCRResult)
    (hh : (insertDesc x l).head? = some h) : h = x ∨ l.head? = some h := by
  cases l with
  | nil =>
    simp only [insertDesc, List.head?_cons, Option.some.injEq] at hh
    exact Or.inl hh.symm
  | cons y ys =>
    by_cases hc : x.confidence < y.confidence <;>
      simp only [insertDesc, hc, if_true, if_false, reduceIte,
        List.head?_cons, Option.some.injEq] at hh
    · exact Or.inr (by simp [hh])
    · exact Or.inl hh.symm

theorem sorted_insertDesc (x : OCRResult) (l : List OCRResult)
    (h : l.Chain' (fun a b => b.confidence ≤ a.confidence)) :
    (insertDesc x l).Chain' (fun a b => b.confidence ≤ a.confidence) := by
  induction l with
  | nil => simp [insertDesc]
  | cons y ys ih =>
    by_cases hc : x.confidence < y.confidence
    · rw [insertDesc, if_pos hc]
      refine List.chain'_cons'.mpr ⟨?_, ih h.tail⟩
      intro z hz
      rcases head?_insertDesc x ys z hz with rfl | hz'
      · exact le_of_lt hc
      · exact (List.chain'_cons'.mp h).1 z hz'
    · rw [insertDesc, if_neg hc]
      refine List.chain'_cons'.mpr ⟨?_, h⟩
      intro z hz
      have hzy : y = z := by simpa using hz
      subst hzy
      exact not_lt.mp hc

theorem sorted_sortByConfDesc (l : List OCRResult) :
    (sortByConfDesc l).Chain' (fun a b => b.confidence ≤ a.confidence) := by
  induction l with
  | nil => simp [sortByConfDesc]
  | cons x xs ih => exact sorted_insertDesc x _ ih

/-- C3: on the spec's example input the ranking keeps exactly the
non-blank fragments above the floor, prepends the synthesized space-joined
candidate carrying the mean confidence, and stable-sorts descending,
giving exactly the expected output; when no fragment passes the floor the
result is empty; and every ranking output is sorted by confidence
descending. -/
theorem rank_spec :
    rank [⟨"ABC123", 92, 0, 0, 0, 0⟩, ⟨"wrench", 45, 0, 0, 0, 0⟩,
        ⟨"  ", 99, 0, 0, 0, 0⟩] =
      [⟨"ABC123", 92, [0, 0, 0, 0]⟩, ⟨"ABC123 wrench", 68.5, []⟩,
        ⟨"wrench", 45, [0, 0, 0, 0]⟩] ∧
    (∀ data : List RawFragment,
      (∀ d ∈ data, pyStripStr d.text = "" ∨ d.conf ≤ 30) → rank data = []) ∧
    (∀ data : List RawFragment,
      (rank data).Chain' (fun a b => b.confidence ≤ a.confidence)) := by
  refine ⟨?_, ?_, ?_⟩
  · have h1 : List.filterMap keepFragment
        [⟨"ABC123", 92, 0, 0, 0, 0⟩, ⟨"wrench", 45, 0, 0, 0, 0⟩,
          ⟨"  ", 99, 0, 0, 0, 0⟩] =
        [(⟨"ABC123", 92, [0, 0, 0, 0]⟩, "ABC123"),
          (⟨"wrench", 45, [0, 0, 0, 0]⟩, "wrench")] := by
      decide
    have h2 : String.intercalate " " ["ABC123", "wrench"] = "ABC123 wrench" := by
      decide
    have h3 : pyStripStr "ABC123 wrench" = "ABC123 wrench" := by decide
    rw [rank, h1]
    simp only [List.map_cons, List.map_nil, List.length_cons, List.length_nil,
      ne_eq, List.cons_ne_nil, not_false_eq_true, if_true, reduceIte, h2]
    simp only [mkOCRResult, h3, List.sum_cons, List.sum_nil]
    norm_num [sortByConfDesc, insertDesc]
  · intro data h
    have hp : data.filterMap keepFragment = [] :=
      List.filterMap_eq_nil_iff.mpr (fun d hd => keepFragment_none (h d hd))
    simp [rank, hp, sortByConfDesc]
  · intro data
    exact sorted_sortByConfDesc _

/-- Witness for C3: a single blank or low-confidence fragment ranks to the
empty list. -/
theorem rank_spec_witness :
    rank [⟨"   ", 99, 0, 0, 0, 0⟩, ⟨"bolt", 30, 0, 0, 0, 0⟩] = [] := by
  refine rank_spec.2.1 _ ?_
  intro d hd
  rcases (by simpa using hd :
      d = ⟨"   ", 99, 0, 0, 0, 0⟩ ∨ d = ⟨"bolt", (30 : ℚ), 0, 0, 0, 0⟩) with
    rfl | rfl
  · exact Or.inl (by decide)
  · exact Or.inr le_rfl

end SightBox

namespace SightBox

/-! ### The generated filename and the validator (C1) -/

/-- The OCR content exactly as `generate_filename` embeds it: sanitized,
then truncated to `max_content_length` characters. -/
def truncatedContent (s : String) : String :=
  if max_content_length < (sanitize_text s).data.length
  then (⟨(sanitize_text s).data.take max_content_length⟩ : String)
  else sanitize_text s

theorem generate_filename_eq (u c : String) (t : PyDateTime) :
    generate_filename u c t =
      namingPfx ++ "_" ++ fmtYYMMDD t ++ "_" ++ sanitize_text u ++ "_" ++
        truncatedContent c ++ ".jpg" := rfl

theorem generate_filename_data (u c : String) (t : PyDateTime) :
    (generate_filename u c t).data =
      namingPfx.data ++ '_' :: ((fmtYYMMDD t).data ++ '_' ::
        ((sanitize_text u).data ++ '_' :: ((truncatedContent c).data ++
          ['.', 'j', 'p', 'g']))) := by
  rw [generate_filename_eq]
  simp only [String.data_append, List.append_assoc]
  rfl

theorem sanitize_text_data_ne_nil (s : String) : (sanitize_text s).data ≠ [] := by
  rw [sanitize_text_eq]
  by_cases h0 : s.data = []
  · rw [if_pos h0]; decide
  · rw [if_neg h0]
    by_cases h1 : cleanedOf s = []
    · rw [if_pos h1]; decide
    · rw [if_neg h1]; exact h1

theorem forbidden_mem_Unknown :
    ∀ x ∈ "Unknown".data, isForbiddenChar x = false := by decide

theorem forbidden_mem_sanitize {c : Char} {s : String}
    (h : c ∈ (sanitize_text s).data) : isForbiddenChar c = false := by
  rw [sanitize_text_eq] at h
  by_cases h0 : s.data = []
  · rw [if_pos h0] at h
    exact forbidden_mem_Unknown c h
  · rw [if_neg h0] at h
    by_cases h1 : cleanedOf s = []
    · rw [if_pos h1] at h
      exact forbidden_mem_Unknown c h
    · rw [if_neg h1] at h
      exact forbidden_mem_cleanedOf h

theorem mem_truncatedContent {c : Char} {s : String}
    (h : c ∈ (truncatedContent s).data) : c ∈ (sanitize_text s).data := by
  unfold truncatedContent at h
  by_cases h1 : max_content_length < (sanitize_text s).data.length
  · rw [if_pos h1] at h
    exact (List.take_sublist _ _).mem h
  · rw [if_neg h1] at h
    exact h

theorem truncatedContent_data_ne_nil (s : String) :
    (truncatedContent s).data ≠ [] := by
  unfold truncatedContent
  by_cases h1 : max_content_length < (sanitize_text s).data.length
  · rw [if_pos h1]
    intro h
    have hl := congrArg List.length h
    simp only [List.length_take, List.length_nil] at hl
    rw [max_content_length] at h1 hl
    omega
  · rw [if_neg h1]
    exact sanitize_text_data_ne_nil s

/-- C1 (amended): `validate_filename (generate_filename u c t)` is true
for every user, content and timestamp PROVIDED the generated filename is
at most 255 characters long; the length guard is necessary because the
sanitized user name is never truncated, so a long user name pushes the
filename over the 255-character limit and validation rejects it. -/
theorem validate_generate_filename (u c : String) (t : PyDateTime)
    (hlen : (generate_filename u c t).data.length ≤ 255) :
    validate_filename (generate_filename u c t) = true := by
  have hdata := generate_filename_data u c t
  refine validate_true_of _ ?_ hlen ?_ ?_
  · rw [hdata]
    intro h
    have := congrArg List.length h
    simp at this
  · intro ch hch
    rw [hdata] at hch
    rcases List.mem_append.mp hch with hch | hch
    · exact (by decide :
        ∀ x ∈ namingPfx.data, isForbiddenChar x = false) ch hch
    · rcases List.mem_cons.mp hch with rfl | hch
      · decide
      · rcases List.mem_append.mp hch with hch | hch
        · exact ((fmtYYMMDD_facts t).2 ch hch).2.1
        · rcases List.mem_cons.mp hch with rfl | hch
          · decide
          · rcases List.mem_append.mp hch with hch | hch
            · exact forbidden_mem_sanitize hch
            · rcases List.mem_cons.mp hch with rfl | hch
              · decide
              · rcases List.mem_append.mp hch with hch | hch
                · exact forbidden_mem_sanitize (mem_truncatedContent hch)
                · exact (by decide :
                    ∀ x ∈ ['.', 'j', 'p', 'g'], isForbiddenChar x = false)
                    ch hch
  · refine ⟨(namingPfx.data ++ '_' :: ((fmtYYMMDD t).data ++ '_' ::
      ((sanitize_text u).data ++ '_' ::
        (truncatedContent c).data))).map pyLowerChar, ?_⟩
    rw [hdata]
    simp only [List.map_append, List.map_cons, List.map_nil,
      List.cons_append, List.append_assoc]
    rfl

/-- Witness for the amended C1 at the spec's own example input. -/
theorem validate_generate_filename_witness :
    validate_filename (generate_filename "김철수" "볼트 M8"
      ⟨2024, 12, 5, by decide, by decide, by decide, by decide⟩) = true :=
  validate_generate_filename _ _ _ (by decide)

set_option maxRecDepth 8000 in
/-- Counterexample to C1 as stated: with a 250-character user name (and
one-character content) the generated filename is 271 characters long and
`validate_filename` returns false. -/
theorem validate_generate_filename_long_user :
    validate_filename (generate_filename ⟨List.replicate 250 'a'⟩ "x"
      ⟨2024, 12, 5, by decide, by decide, by decide, by decide⟩) = false := by
  decide

end SightBox

namespace SightBox

/-! ### The parser's extension stripping (C4, C2) -/

/-- The characters of the pattern `'.jpg'`. -/
def patJpg : List Char := ['.', 'j', 'p', 'g']

/-- The characters of the pattern `'.JPG'`. -/
def patJPG : List Char := ['.', 'J', 'P', 'G']

theorem stripJpgOcc_cons (c : Char) (cs : List Char)
    (h : ¬ patJpg <+: c :: cs) :
    stripJpgOcc (c :: cs) = c :: stripJpgOcc cs := by
  rw [stripJpgOcc.eq_def]
  split
  · rename_i rest heq
    exact absurd ⟨rest, heq.symm⟩ h
  · rename_i hne heq
    injection heq with h1 h2
    subst h1; subst h2
    rfl
  · rename_i heq
    exact absurd heq (List.cons_ne_nil c cs)

theorem stripJPGOcc_cons (c : Char) (cs : List Char)
    (h : ¬ patJPG <+: c :: cs) :
    stripJPGOcc (c :: cs) = c :: stripJPGOcc cs := by
  rw [stripJPGOcc.eq_def]
  split
  · rename_i rest heq
    exact absurd ⟨rest, heq.symm⟩ h
  · rename_i hne heq
    injection heq with h1 h2
    subst h1; subst h2
    rfl
  · rename_i heq
    exact absurd heq (List.cons_ne_nil c cs)

theorem stripJpgOcc_eq_self {l : List Char} (h : ¬ patJpg <:+: l) :
    stripJpgOcc l = l := by
  induction l with
  | nil => rfl
  | cons c cs ih =>
    rw [stripJpgOcc_cons c cs (fun hp => h hp.isInfix),
      ih (fun hi => h (List.infix_cons hi))]

theorem stripJPGOcc_eq_self {l : List Char} (h : ¬ patJPG <:+: l) :
    stripJPGOcc l = l := by
  induction l with
  | nil => rfl
  | cons c cs ih =>
    rw [stripJPGOcc_cons c cs (fun hp => h hp.isInfix),
      ih (fun hi => h (List.infix_cons hi))]

theorem stripJpgOcc_append {x : List Char} (h : ¬ patJpg <:+: x) :
    stripJpgOcc (x ++ patJpg) = x := by
  induction x with
  | nil => rfl
  | cons c cs ih =>
    have hpre : ¬ patJpg <+: c :: (cs ++ patJpg) := by
      intro hp
      rcases hp with ⟨t, ht⟩
      rcases cs with _ | ⟨a, cs⟩
      · simp [patJpg] at ht
      · rcases cs with _ | ⟨b, cs⟩
        · simp [patJpg] at ht
        · rcases cs with _ | ⟨d, cs⟩
          · simp [patJpg] at ht
          · simp only [patJpg, List.cons_append, List.cons.injEq] at ht
            obtain ⟨hc, ha, hb, hd, -⟩ := ht
            refine h (List.IsPrefix.isInfix ⟨cs, ?_⟩)
            simp [patJpg, hc, ha, hb, hd]
            exact ⟨hc, ha, hb, hd⟩
    rw [List.cons_append, stripJpgOcc_cons _ _ hpre,
      ih (fun hi => h (List.infix_cons hi))]

end SightBox

namespace SightBox

theorem pre_append_sep {pat d e : List Char} {sep : Char} (hsep : sep ∉ pat)
    (h : pat <+: d ++ sep :: e) : pat <+: d := by
  rcases h with ⟨t, ht⟩
  rcases List.append_eq_append_iff.mp ht with ⟨w, hw1, hw2⟩ | ⟨w, hw1, hw2⟩
  · exact ⟨w, hw1.symm⟩
  · cases w with
    | nil => exact ⟨[], by simp [hw1]⟩
    | cons y w' =>
      rw [List.cons_append] at hw2
      injection hw2 with h1 _
      subst h1
      exact absurd (hw1 ▸ List.mem_append_right d (List.mem_cons_self sep w'))
        hsep

theorem infix_append_sep {pat : List Char} {sep : Char} (hsep : sep ∉ pat)
    (hne : pat ≠ []) :
    ∀ {a b : List Char}, pat <:+: a ++ sep :: b → pat <:+: a ∨ pat <:+: b := by
  intro a
  induction a with
  | nil =>
    intro b h
    rw [List.nil_append] at h
    rcases List.infix_cons_iff.mp h with hp | hi
    · rcases pat with _ | ⟨p, ps⟩
      · exact absurd rfl hne
      · rcases hp with ⟨t, ht⟩
        rw [List.cons_append] at ht
        injection ht with h1 _
        subst h1
        exact absurd (List.mem_cons_self p ps) hsep
    · exact Or.inr hi
  | cons x a ih =>
    intro b h
    rw [List.cons_append] at h
    rcases List.infix_cons_iff.mp h with hp | hi
    · rw [← List.cons_append] at hp
      exact Or.inl (pre_append_sep hsep hp).isInfix
    · rcases ih hi with h' | h'
      · exact Or.inl (List.infix_cons h')
      · exact Or.inr h'

theorem not_infix_of_all_digit {pat l : List Char} (hp : '.' ∈ pat)
    (hl : ∀ c ∈ l, c.isDigit = true) : ¬ pat <:+: l := by
  intro h
  have hmem : '.' ∈ l := h.subset hp
  have := hl '.' hmem
  simp at this

theorem not_infix_body {pat : List Char} (t : PyDateTime) {U C : List Char}
    (hp : '.' ∈ pat) (hsep : '_' ∉ pat) (hne : pat ≠ [])
    (hpfx : ¬ pat <:+: namingPfx.data)
    (hU : ¬ pat <:+: U) (hC : ¬ pat <:+: C) :
    ¬ pat <:+: namingPfx.data ++ '_' ::
      ((fmtYYMMDD t).data ++ '_' :: (U ++ '_' :: C)) := by
  intro h
  rcases infix_append_sep hsep hne h with h | h
  · exact hpfx h
  · rcases infix_append_sep hsep hne h with h | h
    · exact not_infix_of_all_digit hp
        (fun ch hc => ((fmtYYMMDD_facts t).2 ch hc).1) h
    · rcases infix_append_sep hsep hne h with h | h
      · exact hU h
      · exact hC h

end SightBox

namespace SightBox

/-! ### The parser's pattern matcher on generated names (C2) -/

theorem checkAt_not_sep {pre : List Char} {q : Char} {r : List Char}
    (h : q ≠ '_') : checkAt pre (q :: r) = none := by
  rw [checkAt.eq_def]
  split
  · rename_i heq
    injection heq with h1 _
    exact absurd h1 h
  · rfl

theorem takeWhile_append_of {p : Char → Bool} {a b : List Char}
    (ha : ∀ c ∈ a, p c = true) (hb : ∀ h, b.head? = some h → p h = false) :
    (a ++ b).takeWhile p = a := by
  induction a with
  | nil =>
    cases b with
    | nil => rfl
    | cons y ys => simp [List.takeWhile_cons, hb y rfl]
  | cons x xs ih =>
    simp [List.takeWhile_cons, ha x (List.mem_cons_self _ _),
      ih (fun c hc => ha c (List.mem_cons_of_mem _ hc))]

theorem matchContent_eq {C : List Char} (hC0 : C ≠ []) (hCn : '\n' ∉ C) :
    matchContent C = some C := by
  unfold matchContent
  rw [if_neg hC0, if_neg (by simpa using hCn)]

theorem matchTail_eq {U C : List Char} (hU0 : U ≠ []) (hU : '_' ∉ U)
    (hC0 : C ≠ []) (hCn : '\n' ∉ C) :
    matchTail (U ++ '_' :: C) = some (U, C) := by
  have hrun : (U ++ '_' :: C).takeWhile (fun c => decide (c ≠ '_')) = U := by
    apply takeWhile_append_of
    · intro ch hc
      simp only [decide_eq_true_eq]
      intro heq
      exact hU (heq ▸ hc)
    · intro h hh
      simp only [List.head?_cons, Option.some.injEq] at hh
      subst hh
      simp
  simp only [matchTail, hrun, List.drop_left]
  rw [if_neg hU0]
  rw [matchContent_eq hC0 hCn]
  rfl

theorem checkAt_eq (pre : List Char) {D U C : List Char} (hD6 : D.length = 6)
    (hDd : ∀ c ∈ D, c.isDigit = true) (hU0 : U ≠ []) (hU : '_' ∉ U)
    (hC0 : C ≠ []) (hCn : '\n' ∉ C) :
    checkAt pre ('_' :: (D ++ '_' :: (U ++ '_' :: C))) =
      some (pre, D, U, C) := by
  have htake : (D ++ '_' :: (U ++ '_' :: C)).take 6 = D := by
    rw [← hD6, List.take_left]
  have hdrop : (D ++ '_' :: (U ++ '_' :: C)).drop 6 = '_' :: (U ++ '_' :: C) := by
    rw [← hD6, List.drop_left]
  simp only [checkAt, htake, hdrop]
  rw [if_pos ⟨hD6, by rw [List.all_eq_true]; intro c hc; simpa using hDd c hc⟩]
  rw [matchTail_eq hU0 hU hC0 hCn]
  rfl

theorem findSplit_append {tail : List Char} {r} :
    ∀ (P pre : List Char), P ≠ [] → (∀ c ∈ P, c ≠ '_' ∧ c ≠ '\n') →
    checkAt (pre ++ P) ('_' :: tail) = some r →
    findSplit pre (P ++ '_' :: tail) = some r := by
  intro P
  induction P with
  | nil => intro pre h; exact absurd rfl h
  | cons p P ih =>
    intro pre hne hP hca
    rw [List.cons_append, findSplit]
    rw [if_neg (hP p (List.mem_cons_self _ _)).2]
    cases P with
    | nil =>
      rw [List.nil_append]
      have hca' : checkAt (pre ++ [p]) ('_' :: tail) = some r := hca
      rw [hca']
    | cons q P' =>
      rw [List.cons_append,
        checkAt_not_sep (hP q (List.mem_cons_of_mem _ (List.mem_cons_self _ _))).1]
      rw [← List.cons_append]
      refine ih (pre ++ [p]) (List.cons_ne_nil _ _)
        (fun ch hc => hP ch (List.mem_cons_of_mem _ hc)) ?_
      have : pre ++ [p] ++ (q :: P') = pre ++ p :: q :: P' := by
        simp
      rw [this]
      exact hca

end SightBox

namespace SightBox

theorem newline_not_mem_sanitize {s : String} :
    '\n' ∉ (sanitize_text s).data := by
  intro h
  have h1 := forbidden_mem_sanitize h
  rw [(by decide : isForbiddenChar '\n' = true)] at h1
  simp at h1

theorem dropExt_generate (u c : String) (t : PyDateTime)
    (hu1 : ¬ patJpg <:+: (sanitize_text u).data)
    (hu2 : ¬ patJPG <:+: (sanitize_text u).data)
    (hc1 : ¬ patJpg <:+: (truncatedContent c).data)
    (hc2 : ¬ patJPG <:+: (truncatedContent c).data) :
    dropExt (generate_filename u c t).data =
      namingPfx.data ++ '_' :: ((fmtYYMMDD t).data ++ '_' ::
        ((sanitize_text u).data ++ '_' :: (truncatedContent c).data)) := by
  have hdata : (generate_filename u c t).data =
      (namingPfx.data ++ '_' :: ((fmtYYMMDD t).data ++ '_' ::
        ((sanitize_text u).data ++ '_' :: (truncatedContent c).data))) ++
        patJpg := by
    rw [generate_filename_data]
    simp [patJpg, List.cons_append, List.append_assoc]
  have hnb1 : ¬ patJpg <:+: namingPfx.data ++ '_' ::
      ((fmtYYMMDD t).data ++ '_' ::
        ((sanitize_text u).data ++ '_' :: (truncatedContent c).data)) :=
    not_infix_body t (by decide) (by decide) (by decide) (by decide) hu1 hc1
  have hnb2 : ¬ patJPG <:+: namingPfx.data ++ '_' ::
      ((fmtYYMMDD t).data ++ '_' ::
        ((sanitize_text u).data ++ '_' :: (truncatedContent c).data)) :=
    not_infix_body t (by decide) (by decide) (by decide) (by decide) hu2 hc2
  unfold dropExt
  rw [hdata, stripJpgOcc_append hnb1, stripJPGOcc_eq_self hnb2]

/-- C2 (amended): parsing a generated filename recovers exactly the
sanitized user, the truncated sanitized content and the `YYMMDD` date,
PROVIDED the sanitized user contains no underscore AND neither the
sanitized user nor the truncated sanitized content contains `.jpg` or
`.JPG` as a substring (the parser first deletes every such occurrence,
not only the trailing extension). -/
theorem parse_generate_filename (u c : String) (t : PyDateTime)
    (hu : '_' ∉ (sanitize_text u).data)
    (hu1 : ¬ patJpg <:+: (sanitize_text u).data)
    (hu2 : ¬ patJPG <:+: (sanitize_text u).data)
    (hc1 : ¬ patJpg <:+: (truncatedContent c).data)
    (hc2 : ¬ patJPG <:+: (truncatedContent c).data) :
    parse_filename (generate_filename u c t) =
      some ⟨namingPfx, fmtYYMMDD t, sanitize_text u, truncatedContent c,
        "jpg"⟩ := by
  unfold parse_filename
  simp only [dropExt_generate u c t hu1 hu2 hc1 hc2]
  rw [findSplit_append namingPfx.data [] (by decide) (by decide)
    (checkAt_eq namingPfx.data (fmtYYMMDD_facts t).1
      (fun ch hc => ((fmtYYMMDD_facts t).2 ch hc).1)
      (sanitize_text_data_ne_nil u) hu
      (truncatedContent_data_ne_nil c)
      (fun hn => newline_not_mem_sanitize (mem_truncatedContent hn)))]
  rfl

/-- Witness for the amended C2 at the spec's own example input. -/
theorem parse_generate_filename_witness :
    parse_filename (generate_filename "김철수" "볼트 M8"
      ⟨2024, 12, 5, by decide, by decide, by decide, by decide⟩) =
      some ⟨"03.물품사진", "241205", "김철수", "볼트 M8", "jpg"⟩ := by
  rw [parse_generate_filename "김철수" "볼트 M8" _ (by decide) (by decide)
    (by decide) (by decide) (by decide)]
  decide

/-- Counterexample to C2 as stated: for user `kim` (whose sanitized form
has no underscore, so the claim's proviso holds) and content `a.jpgb`, the
parsed content is `ab`, not the truncated sanitized content `a.jpgb` — the
parser has deleted the inner `.jpg`. -/
theorem parse_generate_filename_jpg_in_content :
    '_' ∉ (sanitize_text "kim").data ∧
    sanitize_text "a.jpgb" = "a.jpgb" ∧
    (parse_filename (generate_filename "kim" "a.jpgb"
      ⟨2024, 12, 5, by decide, by decide, by decide, by decide⟩)).map
        FilenameComponents.content = some "ab" ∧
    ("ab" : String) ≠ "a.jpgb" :=
  ⟨by decide, by decide, by decide, by decide⟩

/-- Counterexample to C4 as stated: in
`"03.물품사진_241205_kim_a.jpgb.jpg"` the occurrence of `.jpg` inside the
content field is NOT left intact: the returned content is `ab`, not
`a.jpgb`. -/
theorem parse_filename_removes_inner_jpg :
    parse_filename "03.물품사진_241205_kim_a.jpgb.jpg" =
      some ⟨"03.물품사진", "241205", "kim", "ab", "jpg"⟩ ∧
    ("ab" : String) ≠ "a.jpgb" :=
  ⟨by decide, by decide⟩

/-- C4 (amended): before pattern matching, `parse_filename` removes every
(left-to-right, non-overlapping) occurrence of `.jpg` and then of `.JPG`
from its input, not only a trailing suffix: an input without any
occurrence is passed through unchanged, an input with a single trailing
occurrence has exactly that suffix removed, and inner occurrences are
removed as well, as the parse of `03.물품사진_241205_kim_a.jpgb.jpg`
(content returned as `ab`) shows. -/
theorem dropExt_spec :
    (∀ l : List Char, ¬ patJpg <:+: l → ¬ patJPG <:+: l → dropExt l = l) ∧
    (∀ l : List Char, ¬ patJpg <:+: l → ¬ patJPG <:+: l →
      dropExt (l ++ patJpg) = l) ∧
    parse_filename "03.물품사진_241205_kim_a.jpgb.jpg" =
      some ⟨"03.물품사진", "241205", "kim", "ab", "jpg"⟩ := by
  refine ⟨?_, ?_, by decide⟩
  · intro l h1 h2
    unfold dropExt
    rw [stripJpgOcc_eq_self h1, stripJPGOcc_eq_self h2]
  · intro l h1 h2
    unfold dropExt
    rw [stripJpgOcc_append h1, stripJPGOcc_eq_self h2]

/-- Witness for the amended C4: a name without occurrences is unchanged,
a trailing `.jpg` is removed. -/
theorem dropExt_spec_witness :
    dropExt "photo".data = "photo".data ∧
    dropExt ("photo".data ++ patJpg) = "photo".data :=
  ⟨dropExt_spec.1 _ (by decide) (by decide),
    dropExt_spec.2.1 _ (by decide) (by decide)⟩

end SightBox
